import Mathlib

/-!
# Verification of the containernet topology/lifecycle orchestrator (`mininet/net.py`)

A shallow embedding of the `Mininet` class of `src/mininet/net.py`:
name-to-node registry, default IP/MAC allocation, runtime add/remove of
hosts and links, the start/stop lifecycle traces (including class-based
batch start/stop of switches), and the `waitConnected` readiness poll loop.

Helper functions that live in `mininet/util.py` (not part of the sources,
only their call sites are) — `ipAdd`/`ipStr`, `macColonHex`, `netParse` —
are modelled from the spec, as marked in their doc comments.

Machine integers are modelled as `Nat` (Python integers are unbounded);
wall-clock time in `waitConnected` is modelled as exact rationals.
-/

set_option autoImplicit false

namespace Containernet

/-- Modelled from the spec: `mininet/util.py`'s `ipStr` (absent from the
sources; only its behaviour via `ipAdd` is specified).  Renders a 32-bit
address number as a dotted quad, e.g. `167772161 ↦ "10.0.0.1"`. -/
def ipStr (ip : Nat) : String :=
  Nat.repr (ip >>> 24 % 256) ++ "." ++ Nat.repr (ip >>> 16 % 256) ++ "." ++
  Nat.repr (ip >>> 8 % 256) ++ "." ++ Nat.repr (ip % 256)

/-- Modelled from the spec: `mininet/util.py`'s `ipAdd` (absent from the
sources).  Per the spec's AddressAllocator contract, the `i`-th address in
the configured base range: base `10.0.0.0/8` with `i = 1, 2, 3` yields
`10.0.0.1`, `10.0.0.2`, `10.0.0.3`.  Address-space exhaustion is an
explicit non-goal of the spec, so no overflow guard is modelled. -/
def ipAdd (i ipBaseNum : Nat) : String :=
  ipStr (ipBaseNum + i)

/-- Lower-case hex digit for `n < 16`, as produced by Python's `%02x`. -/
def hexDigit (n : Nat) : Char :=
  if n < 10 then Char.ofNat (48 + n) else Char.ofNat (87 + n)

/-- Two-digit lower-case hex rendering of a byte, Python's `'%02x' % n`. -/
def hexByte (n : Nat) : String :=
  String.mk [hexDigit (n / 16 % 16), hexDigit (n % 16)]

/-- Modelled from the spec: `mininet/util.py`'s `macColonHex` (absent from
the sources): renders a 48-bit number as six colon-separated hex octets,
most significant octet first (`'%02x' % ((mac >> (8*(5-i))) & 0xff)`). -/
def macColonHex (mac : Nat) : String :=
  String.intercalate ":"
    (([0, 1, 2, 3, 4, 5] : List Nat).map (fun i => hexByte (mac >>> (8 * (5 - i)) &&& 255)))

/-- The 48-bit value computed by `Mininet.randMac` from the raw draw `v` of
`random.randint(1, 2**48 - 1)`:
`v & 0xfeffffffffff | 0x020000000000` (`net.py:383`). -/
def randMacNum (v : Nat) : Nat :=
  v &&& 0xfeffffffffff ||| 0x020000000000

/-- `Mininet.randMac` (`net.py:380-384`) as a function of the raw draw. -/
def randMac (v : Nat) : String :=
  macColonHex (randMacNum v)

/-- First octet of a 48-bit MAC number: `(mac >> 40) & 0xff`, the first
octet rendered by `macColonHex`. -/
def macFirstOctet (mac : Nat) : Nat :=
  mac >>> 40 &&& 255

/-- A concrete Python node/switch class (the value of `type(node)`):
its name and whether it advertises the class-level batch lifecycle
hooks probed by `hasattr(swclass, 'batchStartup' / 'batchShutdown')`
in `Mininet.start`/`Mininet.stop`. -/
structure SwClass where
  cname : String
  hasBatchStartup : Bool
  hasBatchShutdown : Bool
  deriving Repr, DecidableEq

/-- Numeric encoding of a class's two capability flags. -/
def flagVal (c : SwClass) : Nat :=
  (if c.hasBatchStartup then 2 else 0) + (if c.hasBatchShutdown then 1 else 0)

/-- Lexicographic comparison of character lists by code point. -/
def strLeB : List Char → List Char → Bool
  | [], _ => true
  | _ :: _, [] => false
  | a :: as, b :: bs =>
      if a.toNat < b.toNat then true
      else if b.toNat < a.toNat then false
      else strLeB as bs

/-- The order `sorted(self.switches, key=type)` sorts classes by: a
total order on classes (Python 2 orders type objects arbitrarily but
consistently; distinct classes compare unequal), realized as the
lexicographic order on (class name, capability flags). -/
def clsLe (a b : SwClass) : Prop :=
  strLeB a.cname.data b.cname.data = true ∧
  (a.cname = b.cname → flagVal a ≤ flagVal b)

instance (a b : SwClass) : Decidable (clsLe a b) := by
  unfold clsLe; infer_instance

/-- The class used to construct hosts (`self.host`); no batch hooks. -/
def hostCls : SwClass := ⟨"Host", false, false⟩

/-- The class used to construct controllers (`self.controller`). -/
def controllerCls : SwClass := ⟨"Controller", false, false⟩

/-- A constructed node: the parameters the orchestrator passed to the
node constructor (`cls(name, **defaults)`), plus, for switches, which
class it belongs to and whether the class-level batch startup/shutdown
call reports this instance in its success set (the behaviour of the
external `batchStartup`/`batchShutdown` collaborators, an input to the
model). -/
structure Node where
  name : String
  cls : SwClass
  ip : Option String
  mac : Option String
  cores : Option Nat
  nodeListenPort : Option Nat
  inNamespace : Bool
  batchStartOk : Bool
  batchStopOk : Bool
  deriving Repr, DecidableEq

/-- A link: an identity tag plus the names of its two endpoint nodes
(`link.intf1.node`, `link.intf2.node`). -/
structure Link where
  id : Nat
  node1 : String
  node2 : String
  deriving Repr, DecidableEq

/-- Lookup in a Python-dict-like association list (first matching key). -/
def dictGet (d : List (String × Node)) (k : String) : Option Node :=
  match d with
  | [] => none
  | (k', v) :: rest => if k' = k then some v else dictGet rest k

/-- Python `d[k] = v`: replace the value at an existing key in place,
else append a new entry. -/
def dictInsert (d : List (String × Node)) (k : String) (v : Node) :
    List (String × Node) :=
  match d with
  | [] => [(k, v)]
  | (k', v') :: rest =>
      if k' = k then (k', v) :: rest else (k', v') :: dictInsert rest k v

/-- Python `del d[k]`: drop the (unique) entry with key `k`. -/
def dictDel (d : List (String × Node)) (k : String) : List (String × Node) :=
  match d with
  | [] => []
  | (k', v) :: rest => if k' = k then rest else (k', v) :: dictDel rest k

/-- The `Mininet` object state (`net.py:133-189`): allocator counters,
registry, role sequences, link set and the orchestration flags the
embedded operations read. -/
structure Mininet where
  ipBaseNum : Nat
  prefixLen : Nat
  nextIP : Nat
  autoSetMacs : Bool
  autoPinCpus : Bool
  numCores : Nat
  nextCore : Nat
  listenPort : Option Nat
  inNamespace : Bool
  built : Bool
  hosts : List Node
  switches : List Node
  controllers : List Node
  links : List Link
  terms : List Nat
  nameToNode : List (String × Node)
  deriving Repr, DecidableEq

/-- A fresh `Mininet(ipBase='10.0.0.0/8')` before any node is added:
`ipBaseNum = 0x0a000000`, `prefixLen = 8`, `nextIP = 1`, empty role
sequences and registry (`net.py:156-187`). -/
def mkFresh : Mininet :=
  { ipBaseNum := 167772160
    prefixLen := 8
    nextIP := 1
    autoSetMacs := false
    autoPinCpus := false
    numCores := 1
    nextCore := 0
    listenPort := none
    inNamespace := false
    built := false
    hosts := []
    switches := []
    controllers := []
    links := []
    terms := []
    nameToNode := [] }

/-- The default-ip string computed by `Mininet.addHost`/`getNextIp`:
`ipAdd(self.nextIP, ...) + '/%s' % self.prefixLen` (`net.py:235-238`). -/
def Mininet.defaultIp (net : Mininet) : String :=
  ipAdd net.nextIP net.ipBaseNum ++ "/" ++ Nat.repr net.prefixLen

/-- `Mininet.addHost` (`net.py:228-251`): build the defaults map
(default ip; mac/cores when the corresponding auto flags are set), let a
caller-supplied `ip` parameter override the default, advance `nextIP`
unconditionally, construct the host, append it to `hosts` and register
it in `nameToNode`.  The caller-parameter map is modelled by its `ip`
entry, the one parameter the allocator itself defaults. -/
def Mininet.addHost (net : Mininet) (name : String) (ipP : Option String) :
    Mininet × Node :=
  let ip : Option String :=
    match ipP with
    | some s => some s
    | none => some net.defaultIp
  let mac : Option String :=
    if net.autoSetMacs then some (macColonHex net.nextIP) else none
  let cores : Option Nat := if net.autoPinCpus then some net.nextCore else none
  let nextCore :=
    if net.autoPinCpus then (net.nextCore + 1) % net.numCores else net.nextCore
  let h : Node := ⟨name, hostCls, ip, mac, cores, none, true, false, false⟩
  ({ net with
      nextIP := net.nextIP + 1
      nextCore := nextCore
      hosts := net.hosts ++ [h]
      nameToNode := dictInsert net.nameToNode name h }, h)

/-- `Mininet.removeHost` (`net.py:253-272`): look the name up, report
failure when absent; otherwise remove the node from `hosts` (first
occurrence) and delete the registry entry. -/
def Mininet.removeHost (net : Mininet) (name : String) : Mininet × Bool :=
  match dictGet net.nameToNode name with
  | none => (net, false)
  | some h =>
      ({ net with
          hosts := net.hosts.erase h
          nameToNode := dictDel net.nameToNode name }, true)

/-- `Mininet.addSwitch` (`net.py:274-290`): construct with the
`listenPort`/`inNamespace` defaults, bump the shared `listenPort`
counter when not namespaced (and the port is set and nonzero, Python
truthiness), append to `switches` and register.  `cls` is the concrete
switch class; `bStart`/`bStop` record the external batch calls' future
success verdict for this instance. -/
def Mininet.addSwitch (net : Mininet) (name : String) (cls : SwClass)
    (bStart bStop : Bool) : Mininet × Node :=
  let sw : Node :=
    ⟨name, cls, none, none, none, net.listenPort, net.inNamespace, bStart, bStop⟩
  let lp : Option Nat :=
    match net.listenPort with
    | none => none
    | some p => if !net.inNamespace && p ≠ 0 then some (p + 1) else some p
  ({ net with
      listenPort := lp
      switches := net.switches ++ [sw]
      nameToNode := dictInsert net.nameToNode name sw }, sw)

/-- `Mininet.addController` (`net.py:292-311`) on the ordinary path
(name given as a string, default controller class constructs a node):
append to `controllers` and register. -/
def Mininet.addController (net : Mininet) (name : String) : Mininet × Node :=
  let c : Node := ⟨name, controllerCls, none, none, none, none, net.inNamespace,
    false, false⟩
  ({ net with
      controllers := net.controllers ++ [c]
      nameToNode := dictInsert net.nameToNode name c }, c)

/-- The link-search loop of `Mininet.removeLink` (`net.py:440-446`):
first link whose endpoint pair matches `(n1, n2)` in either order. -/
def findLinkByNodes (links : List Link) (n1 n2 : String) : Option Link :=
  links.find? (fun l =>
    (l.node1 = n1 && l.node2 = n2) || (l.node1 = n2 && l.node2 = n1))

/-- `Mininet.removeLink` (`net.py:423-452`) when called with endpoints
instead of a link object: search the link set for a match in either
order; if none, report failure (`error(...)`, no raise) and leave the
link set unchanged; otherwise tear the link down and remove exactly it
(`self.links.remove(link)`, first occurrence). -/
def Mininet.removeLinkByNodes (net : Mininet) (n1 n2 : String) :
    Mininet × Bool :=
  match findLinkByNodes net.links n1 n2 with
  | none => (net, false)
  | some l => ({ net with links := net.links.erase l }, true)

/-- Stable insertion of a switch into a list sorted by class key,
realizing Python 2's stable `sorted(self.switches, key=type)`. -/
def insertByType (s : Node) : List Node → List Node
  | [] => [s]
  | t :: ts =>
      if clsLe s.cls t.cls then s :: t :: ts else t :: insertByType s ts

/-- `sorted(self.switches, key=type)` (`net.py:577-578`, `net.py:604-605`):
stable sort of the switches by concrete class. -/
def sortByType (ss : List Node) : List Node :=
  ss.foldr insertByType []

/-- `itertools.groupby(..., type)`: split a list into maximal runs of
consecutive nodes of the same concrete class. -/
def groupRuns : List Node → List (List Node)
  | [] => []
  | s :: rest =>
      match groupRuns rest with
      | [] => [[s]]
      | [] :: gs => [s] :: [] :: gs
      | (t :: g) :: gs =>
          if s.cls = t.cls then (s :: t :: g) :: gs else [s] :: (t :: g) :: gs

/-- The `(swclass, switches)` groups iterated by `Mininet.start` and
`Mininet.stop`: group the class-sorted switches by concrete class. -/
def batchGroups (switches : List Node) : List (List Node) :=
  groupRuns (sortByType switches)

/-- The union of the success sets returned by the per-class
`batchStartup` calls in `Mininet.start` (`net.py:576-582`): the members
of batch-start-capable classes whose batch call reports them started. -/
def startedSet (switches : List Node) : List Node :=
  (batchGroups switches).foldr
    (fun g acc =>
      match g with
      | [] => acc
      | t :: _ =>
          (if t.cls.hasBatchStartup then g.filter (fun s => s.batchStartOk)
           else []) ++ acc) []

/-- The union of the success sets returned by the per-class
`batchShutdown` calls in `Mininet.stop` (`net.py:603-609`): the `stopped`
mapping's key set. -/
def stoppedSet (switches : List Node) : List Node :=
  (batchGroups switches).foldr
    (fun g acc =>
      match g with
      | [] => acc
      | t :: _ =>
          (if t.cls.hasBatchShutdown then g.filter (fun s => s.batchStopOk)
           else []) ++ acc) []

/-- Observable calls made on the collaborator node/link handles during
`Mininet.start` and `Mininet.stop`. -/
inductive Event where
  | controllerStart : String → Event
  | switchStart : String → Event
  | batchStartup : SwClass → List String → Event
  | controllerStop : String → Event
  | termKill : Nat → Event
  | linkStop : Nat → Event
  | batchShutdown : SwClass → List String → Event
  | switchStop : String → Event
  | switchTerminate : String → Event
  | hostTerminate : String → Event
  deriving Repr, DecidableEq

/-- The call trace of `Mininet.start` (`net.py:563-585`) on an
already-built network: start every controller in order, start every
switch individually (passing the controller set), then group the
switches by concrete class and invoke `batchStartup` once for each
class that advertises it.  The `started` success mapping is recorded
but read by nothing else in `start`.  (`waitConnected`, invoked
afterwards when `waitConn` is set, is modelled separately.) -/
def Mininet.startTrace (net : Mininet) : List Event :=
  net.controllers.map (fun c => Event.controllerStart c.name)
  ++ net.switches.map (fun s => Event.switchStart s.name)
  ++ (batchGroups net.switches).filterMap (fun g =>
       match g with
       | [] => none
       | t :: _ =>
           if t.cls.hasBatchStartup then
             some (Event.batchStartup t.cls (g.map (fun s => s.name)))
           else none)

/-- The call trace of `Mininet.stop` (`net.py:587-620`): stop every
controller, kill the spawned terminals, stop every link, invoke
`batchShutdown` once per capable class, then walk the switches —
individually stopping each one not in the batch success set and
terminating every one — and finally terminate every host. -/
def Mininet.stopTrace (net : Mininet) : List Event :=
  net.controllers.map (fun c => Event.controllerStop c.name)
  ++ net.terms.map (fun t => Event.termKill t)
  ++ net.links.map (fun l => Event.linkStop l.id)
  ++ (batchGroups net.switches).filterMap (fun g =>
       match g with
       | [] => none
       | t :: _ =>
           if t.cls.hasBatchShutdown then
             some (Event.batchShutdown t.cls (g.map (fun s => s.name)))
           else none)
  ++ net.switches.flatMap (fun s =>
       (if s ∈ stoppedSet net.switches then [] else [Event.switchStop s.name])
       ++ [Event.switchTerminate s.name])
  ++ net.hosts.map (fun h => Event.hostTerminate h.name)

/-- Phase number of an event within `Mininet.start`. -/
def startStage : Event → Nat
  | .controllerStart _ => 0
  | .switchStart _ => 1
  | .batchStartup _ _ => 2
  | _ => 0

/-- Teardown stage of an event within `Mininet.stop`: controllers,
terminals, links, class batch shutdown, individual switch handling,
hosts. -/
def stopStage : Event → Nat
  | .controllerStop _ => 0
  | .termKill _ => 1
  | .linkStop _ => 2
  | .batchShutdown _ _ => 3
  | .switchStop _ => 4
  | .switchTerminate _ => 4
  | .hostTerminate _ => 5
  | _ => 0

/-- Fold a sequence of `addHost` calls (name, optional explicit ip). -/
def applyCalls (net : Mininet) : List (String × Option String) → Mininet
  | [] => net
  | (n, ip) :: cs => applyCalls (net.addHost n ip).1 cs

/-- The allocation-counter values consumed *as defaults* by a sequence of
`addHost` calls (calls with an explicit ip still consume their counter
value, but it is not listed here because no default was built from it). -/
def defaultsUsed (net : Mininet) : List (String × Option String) → List Nat
  | [] => []
  | (n, ip) :: cs =>
      (match ip with | none => [net.nextIP] | some _ => []) ++
      defaultsUsed (net.addHost n ip).1 cs

/-- Fold a sequence of `addHost` calls that supply no explicit ip. -/
def addHosts (net : Mininet) : List String → Mininet
  | [] => net
  | n :: ns => addHosts (net.addHost n none).1 ns

/-- The numeric addresses (`ipBaseNum + nextIP` at call time) assigned as
defaults by a sequence of `addHost` calls with no explicit ip. -/
def addHostsTrace (net : Mininet) : List String → List Nat
  | [] => []
  | n :: ns => (net.ipBaseNum + net.nextIP) :: addHostsTrace (net.addHost n none).1 ns

/-- The host objects created, in order, by a sequence of `addHost` calls
with no explicit ip. -/
def hostsAdded (net : Mininet) : List String → List Node
  | [] => []
  | n :: ns => (net.addHost n none).2 :: hostsAdded (net.addHost n none).1 ns

/-- A switch as seen by `Mininet.waitConnected`: its name and the value
its `connected()` predicate would return at each poll round (round `r`
of the main loop polls with argument `r`; the final re-check after the
timeout break polls with argument `breakRound + 1`). -/
structure WSw where
  name : String
  conn : Nat → Bool

/-- One poll round of the `waitConnected` main loop (`net.py:201-204`):
every still-remaining switch is queried and the connected ones are
removed (the loop iterates over `tuple(remaining)`, a copy, so this
removal is faithful to a plain filter). -/
def wcPoll (remaining : List WSw) (r : Nat) : List WSw :=
  remaining.filter (fun s => !(s.conn r))

/-- The `while True` loop of `Mininet.waitConnected` (`net.py:200-211`)
with a finite timeout, carrying the poll-round index `r` and the
accumulated `time` (exact rationals in place of Python floats): poll,
return success on empty, break once `time > timeout`, else sleep and
go round again.  `fuel` bounds the recursion; `waitConnected` passes
enough for the loop to reach its timeout break. -/
def wcGo : Nat → List WSw → Nat → ℚ → ℚ → ℚ → List WSw × Nat
  | 0, remaining, r, _, _, _ => (remaining, r)
  | fuel + 1, remaining, r, time, timeout, delay =>
      let rem2 := wcPoll remaining r
      if rem2.isEmpty then ([], r)
      else if time > timeout then (rem2, r)
      else wcGo fuel rem2 (r + 1) (time + delay) timeout delay

/-- The final re-check loop of `Mininet.waitConnected` (`net.py:213-218`):
`for switch in remaining: if not switch.connected(): warn(...) else:
remaining.remove(switch)`.  Python's for-statement walks the list by
index while `remove` shifts the elements left, so a removal makes the
loop skip the element immediately after the removed one.  `kept` is the
prefix of the list the loop has moved past (the elements at indices
below the loop index after all removals so far); a removal drops the
current element and moves the next one, unexamined, into `kept`.  `fr`
is the poll-round index of this final pass. -/
def fcGo (fr : Nat) (kept : List WSw) (warned : List String) :
    List WSw → List WSw × List String
  | [] => (kept, warned)
  | s :: rest =>
      if s.conn fr then
        match rest with
        | [] => (kept, warned)
        | skipped :: rest2 => fcGo fr (kept ++ [skipped]) warned rest2
      else fcGo fr (kept ++ [s]) (warned ++ [s.name]) rest

/-- `Mininet.waitConnected` (`net.py:191-219`) with a finite timeout:
returns whether all switches ended up connected and the list of switch
names warned about after the timeout. -/
def waitConnected (switches : List WSw) (timeout delay : ℚ) :
    Bool × List String :=
  let fuel := (timeout / delay).floor.toNat + 2
  let res := wcGo fuel switches 0 0 timeout delay
  if res.1.isEmpty then (true, [])
  else
    let fin := fcGo (res.2 + 1) [] [] res.1
    (fin.1.isEmpty, fin.2)

/-- The class of the head of a group (`none` for an empty group). -/
def groupHeadCls : List Node → Option SwClass
  | [] => none
  | t :: _ => some t.cls

/-- Does an event record a `batchStartup` invocation on class `c`? -/
def isBatchStartupFor (c : SwClass) : Event → Bool
  | .batchStartup c' _ => c' = c
  | _ => false

/-- A switch class advertising both batch hooks (e.g. `OVSSwitch`). -/
def ovsCls : SwClass := ⟨"OVSSwitch", true, true⟩

/-- A switch of class `ovsCls` that both batch calls report as
succeeded. -/
def swA : Node := ⟨"s1", ovsCls, none, none, none, none, false, true, true⟩

/-- A switch of class `ovsCls` that neither batch call reports as
succeeded. -/
def swB : Node := ⟨"s2", ovsCls, none, none, none, none, false, false, false⟩

/-- A controller node `c0`. -/
def ctrl0 : Node := ⟨"c0", controllerCls, none, none, none, none, false, false, false⟩

/-- A network with one batch-capable switch whose batch calls succeed. -/
def cnetBatch : Mininet := { mkFresh with switches := [swA] }

/-- A network with two batch-capable switches, one succeeding and one
failing in the batch calls, plus a controller, a host and links. -/
def cnetStop : Mininet :=
  { mkFresh with
      controllers := [ctrl0]
      hosts := [⟨"h1", hostCls, some "10.0.0.1/8", none, none, none, true, false, false⟩]
      links := [⟨0, "h1", "s1"⟩]
      terms := [41]
      switches := [swA, swB] }

/-- A switch that reports connected only from poll round 12 onward — on
the concrete `timeout=1, delay=0.1` runs below, exactly at the final
re-check pass (the main loop breaks after round 11). -/
def wswLateA : WSw := ⟨"sA", fun r => decide (12 ≤ r)⟩

/-- A switch that never reports connected. -/
def wswNeverB : WSw := ⟨"sB", fun _ => false⟩

/-- A switch that is connected from the first poll on. -/
def wswNow1 : WSw := ⟨"s1", fun _ => true⟩

/-- A second switch connected from the first poll on. -/
def wswNow2 : WSw := ⟨"s2", fun _ => true⟩

/-- A switch that never reports connected. -/
def wswNever3 : WSw := ⟨"s3", fun _ => false⟩

/-- A switch connecting only at the final re-check pass. -/
def wswLateC : WSw := ⟨"sC", fun r => decide (12 ≤ r)⟩

/-- Another switch connecting only at the final re-check pass. -/
def wswLateD : WSw := ⟨"sD", fun r => decide (12 ≤ r)⟩

/-! ## Helper lemmas -/

theorem addHost_nextIP (net : Mininet) (name : String) (ipP : Option String) :
    (net.addHost name ipP).1.nextIP = net.nextIP + 1 := rfl

theorem addHost_ipBaseNum (net : Mininet) (name : String) (ipP : Option String) :
    (net.addHost name ipP).1.ipBaseNum = net.ipBaseNum := rfl

theorem addHost_prefixLen (net : Mininet) (name : String) (ipP : Option String) :
    (net.addHost name ipP).1.prefixLen = net.prefixLen := rfl

theorem dictGet_dictInsert_self (d : List (String × Node)) (k : String) (v : Node) :
    dictGet (dictInsert d k v) k = some v := by
  induction d with
  | nil => simp [dictInsert, dictGet]
  | cons p rest ih =>
      obtain ⟨k', v'⟩ := p
      by_cases h : k' = k
      · simp [dictInsert, dictGet, h]
      · simp [dictInsert, dictGet, h, ih]

theorem dictInsert_of_get_none (d : List (String × Node)) (k : String) (v : Node)
    (h : dictGet d k = none) : dictInsert d k v = d ++ [(k, v)] := by
  induction d with
  | nil => simp [dictInsert]
  | cons p rest ih =>
      obtain ⟨k', v'⟩ := p
      by_cases hk : k' = k
      · simp [dictGet, hk] at h
      · simp [dictGet, hk] at h
        simp [dictInsert, hk, ih h]

theorem dictGet_append_right (d : List (String × Node)) (k : String) (v : Node)
    (h : dictGet d k = none) : dictGet (d ++ [(k, v)]) k = some v := by
  induction d with
  | nil => simp [dictGet]
  | cons p rest ih =>
      obtain ⟨k', v'⟩ := p
      by_cases hk : k' = k
      · simp [dictGet, hk] at h
      · simp [dictGet, hk] at h
        simp [dictGet, hk, ih h]

theorem dictDel_append (d : List (String × Node)) (k : String) (v : Node)
    (h : dictGet d k = none) : dictDel (d ++ [(k, v)]) k = d := by
  induction d with
  | nil => simp [dictDel]
  | cons p rest ih =>
      obtain ⟨k', v'⟩ := p
      by_cases hk : k' = k
      · simp [dictGet, hk] at h
      · simp [dictGet, hk] at h
        simp [dictDel, hk, ih h]

theorem defaultsUsed_lb (calls : List (String × Option String)) :
    ∀ (net : Mininet) (k : Nat), k ∈ defaultsUsed net calls → net.nextIP ≤ k := by
  induction calls with
  | nil => intro net k h; simp [defaultsUsed] at h
  | cons c cs ih =>
      intro net k h
      obtain ⟨n, ip⟩ := c
      simp only [defaultsUsed, List.mem_append] at h
      rcases h with h | h
      · cases ip with
        | none => simp at h; omega
        | some s => simp at h
      · have := ih (net.addHost n ip).1 k h
        rw [addHost_nextIP] at this
        omega

/-! ## C3: randMac sets the locally-administered bit and clears the
multicast bit -/

/-- C3: For every value `v` the 48-bit draw `random.randint(1, 2**48-1)`
can take, the MAC returned by `randMac` has the multicast/broadcast bit
(lowest bit of the first octet) clear and the locally-administered bit
(second-lowest bit of the first octet) set. -/
theorem C3_randMac_bits (v : Nat) (h1 : 1 ≤ v) (h2 : v ≤ 2 ^ 48 - 1) :
    (macFirstOctet (randMacNum v)).testBit 0 = false ∧
    (macFirstOctet (randMacNum v)).testBit 1 = true := by
  have hM40 : Nat.testBit 0xfeffffffffff 40 = false := by decide
  have hS40 : Nat.testBit 0x020000000000 40 = false := by decide
  have hS41 : Nat.testBit 0x020000000000 41 = true := by decide
  have h255a : Nat.testBit 255 0 = true := by decide
  have h255b : Nat.testBit 255 1 = true := by decide
  constructor
  · simp [macFirstOctet, randMacNum, Nat.testBit_and, Nat.testBit_or,
      Nat.testBit_shiftRight, hM40, hS40, h255a]
  · simp [macFirstOctet, randMacNum, Nat.testBit_and, Nat.testBit_or,
      Nat.testBit_shiftRight, hS41, h255b]

/-- Witness for C3 at the concrete draw `v = 7`. -/
theorem C3_randMac_bits_witness :
    (macFirstOctet (randMacNum 7)).testBit 0 = false ∧
    (macFirstOctet (randMacNum 7)).testBit 1 = true :=
  C3_randMac_bits 7 (by decide) (by decide)

/-! ## C10: every addHost call consumes one allocation-counter value,
explicit-ip calls included -/

/-- C10: `addHost` advances `nextIP` by exactly one even when the caller
supplies an explicit `ip` parameter, and the counter value it consumed is
never used to build a default address by any later `addHost` call on the
same network instance. -/
theorem C10_counter_skipped (net : Mininet) (name : String) (ipP : Option String) :
    (net.addHost name ipP).1.nextIP = net.nextIP + 1 ∧
    ∀ (calls : List (String × Option String)) (k : Nat),
      k ∈ defaultsUsed (net.addHost name ipP).1 calls → net.nextIP < k := by
  refine ⟨rfl, ?_⟩
  intro calls k hk
  have := defaultsUsed_lb calls (net.addHost name ipP).1 k hk
  rw [addHost_nextIP] at this
  omega

/-- Witness for C10: on a fresh net, the host added with an explicit ip
consumes counter value 1, and a subsequent default allocation uses 2. -/
theorem C10_counter_skipped_witness :
    mkFresh.nextIP < 2 :=
  (C10_counter_skipped mkFresh "h1" (some "10.0.0.99/8")).2
    [("h2", none)] 2 (by decide)

/-! ## C1: registration with an already-registered name -/

/-- C1 counterexample: on a fresh net, adding host `h1` and then adding
`h1` again raises no error; the second call changes both the
name-to-node mapping (now the second node, with the next default ip)
and the `hosts` role sequence, where the claim says a
`DuplicateNameError` leaves both unchanged. -/
theorem C1_duplicate_overwrites_cex :
    (dictGet ((mkFresh.addHost "h1" none).1).nameToNode "h1").isSome = true ∧
    ((mkFresh.addHost "h1" none).1.addHost "h1" none).1.nameToNode ≠
      (mkFresh.addHost "h1" none).1.nameToNode ∧
    ((mkFresh.addHost "h1" none).1.addHost "h1" none).1.hosts ≠
      (mkFresh.addHost "h1" none).1.hosts := by
  refine ⟨rfl, ?_, ?_⟩ <;> decide

/-- C1 amended: registering a name that is already present does not fail
— there is no duplicate check.  `addHost`, `addSwitch` and
`addController` each construct a new node, append it to their role
sequence, and overwrite the name-to-node mapping with the new node. -/
theorem C1_register_overwrites (net : Mininet) (name : String)
    (h : (dictGet net.nameToNode name).isSome = true) :
    ((net.addHost name none).1.hosts = net.hosts ++ [(net.addHost name none).2] ∧
      dictGet (net.addHost name none).1.nameToNode name =
        some (net.addHost name none).2) ∧
    (∀ (cls : SwClass) (bStart bStop : Bool),
      (net.addSwitch name cls bStart bStop).1.switches =
        net.switches ++ [(net.addSwitch name cls bStart bStop).2] ∧
      dictGet (net.addSwitch name cls bStart bStop).1.nameToNode name =
        some (net.addSwitch name cls bStart bStop).2) ∧
    ((net.addController name).1.controllers =
        net.controllers ++ [(net.addController name).2] ∧
      dictGet (net.addController name).1.nameToNode name =
        some (net.addController name).2) := by
  refine ⟨⟨rfl, ?_⟩, fun cls bS bSt => ⟨rfl, ?_⟩, ⟨rfl, ?_⟩⟩ <;>
    exact dictGet_dictInsert_self _ _ _

/-- Witness for C1 at a concrete double registration of `h1`. -/
theorem C1_register_overwrites_witness :
    dictGet ((mkFresh.addHost "h1" none).1.addHost "h1" none).1.nameToNode "h1" =
      some ((mkFresh.addHost "h1" none).1.addHost "h1" none).2 :=
  ((C1_register_overwrites (mkFresh.addHost "h1" none).1 "h1" (by decide)).1).2

/-! ## C2: default address allocation is injective and increasing -/

theorem addHosts_nextIP (names : List String) :
    ∀ net : Mininet, (addHosts net names).nextIP = net.nextIP + names.length := by
  induction names with
  | nil => intro net; simp [addHosts]
  | cons n ns ih =>
      intro net
      simp [addHosts, ih, addHost_nextIP, List.length_cons]
      omega

theorem addHostsTrace_lb (names : List String) :
    ∀ (net : Mininet) (k : Nat), k ∈ addHostsTrace net names →
      net.ipBaseNum + net.nextIP ≤ k := by
  induction names with
  | nil => intro net k h; simp [addHostsTrace] at h
  | cons n ns ih =>
      intro net k h
      simp only [addHostsTrace, List.mem_cons] at h
      rcases h with h | h
      · omega
      · have := ih (net.addHost n none).1 k h
        rw [addHost_nextIP, addHost_ipBaseNum] at this
        omega

theorem addHostsTrace_pairwise_lt (names : List String) :
    ∀ net : Mininet, (addHostsTrace net names).Pairwise (· < ·) := by
  induction names with
  | nil => intro net; simp [addHostsTrace]
  | cons n ns ih =>
      intro net
      simp only [addHostsTrace]
      refine List.Pairwise.cons ?_ (ih _)
      intro k hk
      have := addHostsTrace_lb ns (net.addHost n none).1 k hk
      rw [addHost_nextIP, addHost_ipBaseNum] at this
      omega

/-- The sequence of default host-ip strings an allocator state produces:
entry `j` is `ipAdd (i + j) base ++ "/" ++ pl`. -/
def defaultIpsFrom (base pl : Nat) : Nat → Nat → List String
  | _, 0 => []
  | i, k + 1 => (ipAdd i base ++ "/" ++ Nat.repr pl) :: defaultIpsFrom base pl (i + 1) k

theorem hostsAdded_map_ip (names : List String) :
    ∀ net : Mininet, (hostsAdded net names).map (fun h => h.ip) =
      (defaultIpsFrom net.ipBaseNum net.prefixLen net.nextIP names.length).map some := by
  induction names with
  | nil => intro net; simp [hostsAdded, defaultIpsFrom]
  | cons n ns ih =>
      intro net
      simp only [hostsAdded, List.map_cons, List.length_cons, defaultIpsFrom]
      rw [ih (net.addHost n none).1, addHost_nextIP, addHost_ipBaseNum,
        addHost_prefixLen]
      rfl

theorem addHosts_hosts (names : List String) :
    ∀ net : Mininet, (addHosts net names).hosts = net.hosts ++ hostsAdded net names := by
  induction names with
  | nil => intro net; simp [addHosts, hostsAdded]
  | cons n ns ih =>
      intro net
      simp only [addHosts, hostsAdded, ih]
      show (net.addHost n none).1.hosts ++ _ = _
      simp [Mininet.addHost]

/-- C2: starting from a fresh network with base `10.0.0.0/8`, any
sequence of `addHost` calls with no explicit ip assigns numeric default
addresses that are strictly increasing (hence pairwise distinct), the
counter advances by one per call and is never reused, and the first
three hosts receive `10.0.0.1/8`, `10.0.0.2/8` and `10.0.0.3/8`. -/
theorem C2_default_ips_injective (names : List String) :
    (addHostsTrace mkFresh names).Pairwise (· < ·) ∧
    (addHostsTrace mkFresh names).Pairwise (· ≠ ·) ∧
    (addHosts mkFresh names).nextIP = 1 + names.length ∧
    (∀ (a b c : String) (rest : List String), names = a :: b :: c :: rest →
      ((addHosts mkFresh names).hosts.map (fun h => h.ip)).take 3 =
        [some "10.0.0.1/8", some "10.0.0.2/8", some "10.0.0.3/8"]) := by
  refine ⟨addHostsTrace_pairwise_lt names mkFresh, ?_, ?_, ?_⟩
  · exact (addHostsTrace_pairwise_lt names mkFresh).imp Nat.ne_of_lt
  · rw [addHosts_nextIP]; simp [mkFresh]
  · intro a b c rest hn
    subst hn
    rw [addHosts_hosts, List.map_append, hostsAdded_map_ip]
    rfl

/-- Witness for C2 at the concrete call sequence `h1, h2, h3`. -/
theorem C2_default_ips_injective_witness :
    ((addHosts mkFresh ["h1", "h2", "h3"]).hosts.map (fun h => h.ip)).take 3 =
      [some "10.0.0.1/8", some "10.0.0.2/8", some "10.0.0.3/8"] :=
  (C2_default_ips_injective ["h1", "h2", "h3"]).2.2.2 "h1" "h2" "h3" [] rfl

/-! ## C9: addHost then removeHost restores registry and hosts -/

/-- C9: on any network state, adding a host under a fresh name (with an
explicit ip) and then removing that name restores `nameToNode` and the
`hosts` role sequence exactly, and the removal reports success. -/
theorem C9_add_remove_roundtrip (net : Mininet) (name : String) (ipS : String)
    (hreg : dictGet net.nameToNode name = none)
    (hh : ∀ h ∈ net.hosts, h.name ≠ name) :
    ((net.addHost name (some ipS)).1.removeHost name).1.nameToNode =
      net.nameToNode ∧
    ((net.addHost name (some ipS)).1.removeHost name).1.hosts = net.hosts ∧
    ((net.addHost name (some ipS)).1.removeHost name).2 = true := by
  have hnode : (net.addHost name (some ipS)).2.name = name := rfl
  have hmap : (net.addHost name (some ipS)).1.nameToNode =
      dictInsert net.nameToNode name (net.addHost name (some ipS)).2 := rfl
  rw [dictInsert_of_get_none _ _ _ hreg] at hmap
  have hget : dictGet (net.addHost name (some ipS)).1.nameToNode name =
      some (net.addHost name (some ipS)).2 := by
    rw [hmap]; exact dictGet_append_right _ _ _ hreg
  have hhosts : (net.addHost name (some ipS)).1.hosts =
      net.hosts ++ [(net.addHost name (some ipS)).2] := rfl
  have hnotmem : (net.addHost name (some ipS)).2 ∉ net.hosts := by
    intro hmem
    exact hh _ hmem hnode
  simp only [Mininet.removeHost, hget]
  refine ⟨?_, ?_, trivial⟩
  · show dictDel (net.addHost name (some ipS)).1.nameToNode name = net.nameToNode
    rw [hmap]
    exact dictDel_append _ _ _ hreg
  · show ((net.addHost name (some ipS)).1.hosts).erase
        (net.addHost name (some ipS)).2 = net.hosts
    rw [hhosts, List.erase_append_right _ hnotmem]
    simp

/-- Witness for C9: `addHost("h5", ip="10.0.0.5/8")` then
`removeHost("h5")` on a fresh network. -/
theorem C9_add_remove_roundtrip_witness :
    ((mkFresh.addHost "h5" (some "10.0.0.5/8")).1.removeHost "h5").1.nameToNode =
      mkFresh.nameToNode ∧
    ((mkFresh.addHost "h5" (some "10.0.0.5/8")).1.removeHost "h5").1.hosts =
      mkFresh.hosts ∧
    ((mkFresh.addHost "h5" (some "10.0.0.5/8")).1.removeHost "h5").2 = true :=
  C9_add_remove_roundtrip mkFresh "h5" "10.0.0.5/8" (by decide) (by decide)

/-! ## C7: removeLink by endpoint pair -/

/-- C7: `removeLink` called with an endpoint pair selects the first link
whose endpoints match the pair in either order; when no link matches it
reports failure (no exception) and leaves the network — in particular
the link set — unchanged; when a link matches it removes exactly that
link (the link set shrinks by one occurrence of it) and reports
success. -/
theorem C7_removeLink_by_endpoints (net : Mininet) (n1 n2 : String) :
    (findLinkByNodes net.links n1 n2 = none →
      net.removeLinkByNodes n1 n2 = (net, false)) ∧
    (∀ l : Link, findLinkByNodes net.links n1 n2 = some l →
      ((l.node1 = n1 ∧ l.node2 = n2) ∨ (l.node1 = n2 ∧ l.node2 = n1)) ∧
      l ∈ net.links ∧
      (net.removeLinkByNodes n1 n2).1.links = net.links.erase l ∧
      (net.removeLinkByNodes n1 n2).1.links.length + 1 = net.links.length ∧
      (net.removeLinkByNodes n1 n2).2 = true) := by
  constructor
  · intro h
    simp [Mininet.removeLinkByNodes, h]
  · intro l h
    have hmatch := List.find?_some h
    have hmem := List.mem_of_find?_eq_some h
    refine ⟨?_, hmem, ?_, ?_, ?_⟩
    · simp only [Bool.or_eq_true, Bool.and_eq_true, decide_eq_true_eq] at hmatch
      exact hmatch
    · simp [Mininet.removeLinkByNodes, h]
    · simp only [Mininet.removeLinkByNodes, h]
      rw [List.length_erase_of_mem hmem]
      have : 0 < net.links.length := List.length_pos.mpr (List.ne_nil_of_mem hmem)
      omega
    · simp [Mininet.removeLinkByNodes, h]

/-- Witness for C7: removing the single link `h1 – s1` by the endpoint
pair `("s1", "h1")` (reversed order) matches and succeeds. -/
theorem C7_removeLink_by_endpoints_witness :
    ((⟨0, "h1", "s1"⟩ : Link) ∈
        ({ mkFresh with links := [⟨0, "h1", "s1"⟩] } : Mininet).links) ∧
    (({ mkFresh with links := [⟨0, "h1", "s1"⟩] } : Mininet).removeLinkByNodes
        "s1" "h1").1.links =
      ({ mkFresh with links := [⟨0, "h1", "s1"⟩] } : Mininet).links.erase
        ⟨0, "h1", "s1"⟩ ∧
    (({ mkFresh with links := [⟨0, "h1", "s1"⟩] } : Mininet).removeLinkByNodes
        "s1" "h1").2 = true := by
  have h := (C7_removeLink_by_endpoints
    { mkFresh with links := [⟨0, "h1", "s1"⟩] } "s1" "h1").2 ⟨0, "h1", "s1"⟩ rfl
  exact ⟨h.2.1, h.2.2.1, h.2.2.2.2⟩

/-! ## Order, sorting and grouping lemmas for the switch-class batching -/

theorem strLeB_refl : ∀ x : List Char, strLeB x x = true := by
  intro x
  induction x with
  | nil => rfl
  | cons a as ih => simp [strLeB, ih]

theorem strLeB_total : ∀ x y : List Char,
    strLeB x y = true ∨ strLeB y x = true := by
  intro x
  induction x with
  | nil => intro y; exact Or.inl rfl
  | cons a as ih =>
      intro y
      cases y with
      | nil => exact Or.inr rfl
      | cons b bs =>
          rcases Nat.lt_trichotomy a.toNat b.toNat with h | h | h
          · left; simp [strLeB, h]
          · rcases ih bs with hab | hba
            · left; simp [strLeB, h, Nat.lt_irrefl, hab]
            · right; simp [strLeB, h.symm, Nat.lt_irrefl, hba]
          · right; simp [strLeB, h]

theorem char_eq_of_toNat_eq {a b : Char} (h : a.toNat = b.toNat) : a = b :=
  Char.ext (UInt32.ext h)

theorem strLeB_antisymm : ∀ x y : List Char,
    strLeB x y = true → strLeB y x = true → x = y := by
  intro x
  induction x with
  | nil =>
      intro y hxy hyx
      cases y with
      | nil => rfl
      | cons b bs => simp [strLeB] at hyx
  | cons a as ih =>
      intro y hxy hyx
      cases y with
      | nil => simp [strLeB] at hxy
      | cons b bs =>
          by_cases h1 : a.toNat < b.toNat
          · have : ¬ b.toNat < a.toNat := Nat.lt_asymm h1
            simp [strLeB, this, h1] at hyx
          · by_cases h2 : b.toNat < a.toNat
            · simp [strLeB, h1, h2] at hxy
            · have heq : a = b :=
                char_eq_of_toNat_eq (Nat.le_antisymm
                  (Nat.le_of_not_lt h2) (Nat.le_of_not_lt h1))
              simp [strLeB, h1, h2] at hxy hyx
              rw [heq, ih bs hxy hyx]

theorem strLeB_trans : ∀ x y z : List Char,
    strLeB x y = true → strLeB y z = true → strLeB x z = true := by
  intro x
  induction x with
  | nil => intro y z _ _; rfl
  | cons a as ih =>
      intro y z hxy hyz
      cases y with
      | nil => simp [strLeB] at hxy
      | cons b bs =>
          cases z with
          | nil => simp [strLeB] at hyz
          | cons c cs =>
              by_cases h1 : a.toNat < b.toNat
              · by_cases h2 : b.toNat < c.toNat
                · simp [strLeB, Nat.lt_trans h1 h2]
                · by_cases h3 : c.toNat < b.toNat
                  · simp [strLeB, h2, h3] at hyz
                  · have hbc : b.toNat = c.toNat :=
                      Nat.le_antisymm (Nat.le_of_not_lt h3) (Nat.le_of_not_lt h2)
                    simp [strLeB, hbc ▸ h1]
              · by_cases h2 : b.toNat < a.toNat
                · simp [strLeB, h1, h2] at hxy
                · have hab : a.toNat = b.toNat :=
                    Nat.le_antisymm (Nat.le_of_not_lt h2) (Nat.le_of_not_lt h1)
                  simp only [strLeB, if_neg h1, if_neg h2] at hxy
                  by_cases h3 : b.toNat < c.toNat
                  · simp [strLeB, hab ▸ h3]
                  · by_cases h4 : c.toNat < b.toNat
                    · simp [strLeB, h3, h4] at hyz
                    · simp only [strLeB, if_neg h3, if_neg h4] at hyz
                      have hxz := ih bs cs hxy hyz
                      have h5 : ¬ a.toNat < c.toNat := by omega
                      have h6 : ¬ c.toNat < a.toNat := by omega
                      simp [strLeB, h5, h6, hxz]

theorem string_eq_of_data_eq {x y : String} (h : x.data = y.data) : x = y := by
  cases x
  cases y
  simp only at h
  rw [h]

theorem clsLe_total (a b : SwClass) : clsLe a b ∨ clsLe b a := by
  by_cases hn : a.cname = b.cname
  · rcases Nat.le_total (flagVal a) (flagVal b) with hf | hf
    · exact Or.inl ⟨hn ▸ strLeB_refl _, fun _ => hf⟩
    · exact Or.inr ⟨hn ▸ strLeB_refl _, fun _ => hf⟩
  · rcases strLeB_total a.cname.data b.cname.data with h | h
    · exact Or.inl ⟨h, fun he => absurd he hn⟩
    · exact Or.inr ⟨h, fun he => absurd he.symm hn⟩

theorem clsLe_trans {a b c : SwClass} (h1 : clsLe a b) (h2 : clsLe b c) :
    clsLe a c := by
  obtain ⟨s1, f1⟩ := h1
  obtain ⟨s2, f2⟩ := h2
  refine ⟨strLeB_trans _ _ _ s1 s2, ?_⟩
  intro hac
  have hdata : c.cname.data = a.cname.data := by rw [hac]
  have hba : strLeB b.cname.data a.cname.data = true := hdata ▸ s2
  have hab : a.cname = b.cname :=
    string_eq_of_data_eq (strLeB_antisymm _ _ s1 hba)
  exact Nat.le_trans (f1 hab) (f2 (hab ▸ hac))

theorem flagVal_inj {a b : SwClass} (hc : a.cname = b.cname)
    (hf : flagVal a = flagVal b) : a = b := by
  obtain ⟨ca, a1, a2⟩ := a
  obtain ⟨cb, b1, b2⟩ := b
  simp only at hc
  subst hc
  cases a1 <;> cases a2 <;> cases b1 <;> cases b2 <;> simp_all [flagVal]

theorem clsLe_antisymm {a b : SwClass} (h1 : clsLe a b) (h2 : clsLe b a) :
    a = b := by
  obtain ⟨s1, f1⟩ := h1
  obtain ⟨s2, f2⟩ := h2
  have hab : a.cname = b.cname :=
    string_eq_of_data_eq (strLeB_antisymm _ _ s1 s2)
  exact flagVal_inj hab (Nat.le_antisymm (f1 hab) (f2 hab.symm))

theorem mem_insertByType (s x : Node) :
    ∀ l : List Node, x ∈ insertByType s l ↔ x = s ∨ x ∈ l := by
  intro l
  induction l with
  | nil => simp [insertByType]
  | cons t ts ih =>
      by_cases h : clsLe s.cls t.cls
      · simp [insertByType, h]
      · simp [insertByType, h, ih]
        tauto

theorem insertByType_perm (s : Node) :
    ∀ l : List Node, (insertByType s l).Perm (s :: l) := by
  intro l
  induction l with
  | nil => simp [insertByType]
  | cons t ts ih =>
      by_cases h : clsLe s.cls t.cls
      · simp [insertByType, h]
      · simp only [insertByType, if_neg h]
        exact ((ih.cons t).trans (List.Perm.swap s t ts))

theorem sortByType_perm : ∀ l : List Node, (sortByType l).Perm l := by
  intro l
  induction l with
  | nil => simp [sortByType]
  | cons x xs ih =>
      show (insertByType x (sortByType xs)).Perm (x :: xs)
      exact (insertByType_perm x (sortByType xs)).trans (ih.cons x)

theorem pairwise_insertByType (s : Node) :
    ∀ l : List Node, l.Pairwise (fun a b => clsLe a.cls b.cls) →
      (insertByType s l).Pairwise (fun a b => clsLe a.cls b.cls) := by
  intro l
  induction l with
  | nil => intro _; simp [insertByType]
  | cons t ts ih =>
      intro h
      have hts := h.of_cons
      have hhead : ∀ y ∈ ts, clsLe t.cls y.cls :=
        fun y hy => List.rel_of_pairwise_cons h hy
      by_cases hc : clsLe s.cls t.cls
      · simp only [insertByType, if_pos hc]
        refine List.Pairwise.cons ?_ h
        intro y hy
        rcases List.mem_cons.mp hy with rfl | hy
        · exact hc
        · exact clsLe_trans hc (hhead y hy)
      · simp only [insertByType, if_neg hc]
        refine List.Pairwise.cons ?_ (ih hts)
        intro y hy
        rcases (mem_insertByType s y ts).mp hy with hys | hy
        · rw [hys]
          rcases clsLe_total s.cls t.cls with hst | hts2
          · exact absurd hst hc
          · exact hts2
        · exact hhead y hy

theorem sortByType_pairwise :
    ∀ l : List Node, (sortByType l).Pairwise (fun a b => clsLe a.cls b.cls) := by
  intro l
  induction l with
  | nil => simp [sortByType]
  | cons x xs ih =>
      show (insertByType x (sortByType xs)).Pairwise _
      exact pairwise_insertByType x (sortByType xs) ih

theorem sortByType_map_cls_mem (l : List Node) (c : SwClass) :
    c ∈ (sortByType l).map (fun s => s.cls) ↔ c ∈ l.map (fun s => s.cls) :=
  ((sortByType_perm l).map (fun s => s.cls)).mem_iff

theorem groupRuns_head_cons (s : Node) (rest : List Node) :
    ∃ g gs, groupRuns (s :: rest) = (s :: g) :: gs := by
  cases hgr : groupRuns rest with
  | nil => exact ⟨[], [], by simp [groupRuns, hgr]⟩
  | cons g0 gs0 =>
      cases g0 with
      | nil => exact ⟨[], [] :: gs0, by simp [groupRuns, hgr]⟩
      | cons t g' =>
          by_cases hc : s.cls = t.cls
          · exact ⟨t :: g', gs0, by simp [groupRuns, hgr, hc]⟩
          · exact ⟨[], (t :: g') :: gs0, by simp [groupRuns, hgr, hc]⟩

theorem groupRuns_sub :
    ∀ (l : List Node) (g : List Node), g ∈ groupRuns l → ∀ a ∈ g, a ∈ l := by
  intro l
  induction l with
  | nil => intro g hg; simp [groupRuns] at hg
  | cons s rest ih =>
      intro g hg a ha
      revert hg
      cases hgr : groupRuns rest with
      | nil =>
          intro hg
          simp [groupRuns, hgr] at hg
          subst hg
          simp at ha
          simp [ha]
      | cons g0 gs0 =>
          cases g0 with
          | nil =>
              intro hg
              simp only [groupRuns, hgr] at hg
              rcases List.mem_cons.mp hg with rfl | hg
              · simp at ha; simp [ha]
              · rcases List.mem_cons.mp hg with rfl | hg
                · simp at ha
                · exact List.mem_cons_of_mem s (ih g (hgr ▸ List.mem_cons_of_mem _ hg) a ha)
          | cons t g' =>
              by_cases hc : s.cls = t.cls
              · intro hg
                simp only [groupRuns, hgr, if_pos hc] at hg
                rcases List.mem_cons.mp hg with rfl | hg
                · rcases List.mem_cons.mp ha with rfl | ha
                  · simp
                  · exact List.mem_cons_of_mem s
                      (ih (t :: g') (hgr ▸ List.mem_cons_self _ _) a ha)
                · exact List.mem_cons_of_mem s
                    (ih g (hgr ▸ List.mem_cons_of_mem _ hg) a ha)
              · intro hg
                simp only [groupRuns, hgr, if_neg hc] at hg
                rcases List.mem_cons.mp hg with rfl | hg
                · simp at ha; simp [ha]
                · exact List.mem_cons_of_mem s (ih g (hgr ▸ hg) a ha)

theorem groupRuns_homogeneous :
    ∀ (l : List Node) (g : List Node), g ∈ groupRuns l →
      ∀ a ∈ g, ∀ b ∈ g, a.cls = b.cls := by
  intro l
  induction l with
  | nil => intro g hg; simp [groupRuns] at hg
  | cons s rest ih =>
      intro g hg a ha b hb
      revert hg
      cases hgr : groupRuns rest with
      | nil =>
          intro hg
          simp [groupRuns, hgr] at hg
          subst hg
          simp at ha hb
          rw [ha, hb]
      | cons g0 gs0 =>
          cases g0 with
          | nil =>
              intro hg
              simp only [groupRuns, hgr] at hg
              rcases List.mem_cons.mp hg with rfl | hg
              · simp at ha hb; rw [ha, hb]
              · rcases List.mem_cons.mp hg with rfl | hg
                · simp at ha
                · exact ih g (hgr ▸ List.mem_cons_of_mem _ hg) a ha b hb
          | cons t g' =>
              by_cases hc : s.cls = t.cls
              · intro hg
                simp only [groupRuns, hgr, if_pos hc] at hg
                rcases List.mem_cons.mp hg with rfl | hg
                · have hall : ∀ x ∈ s :: t :: g', x.cls = t.cls := by
                    intro x hx
                    rcases List.mem_cons.mp hx with rfl | hx
                    · exact hc
                    · exact ih (t :: g') (hgr ▸ List.mem_cons_self _ _) x hx t
                        (List.mem_cons_self _ _)
                  rw [hall a ha, hall b hb]
                · exact ih g (hgr ▸ List.mem_cons_of_mem _ hg) a ha b hb
              · intro hg
                simp only [groupRuns, hgr, if_neg hc] at hg
                rcases List.mem_cons.mp hg with rfl | hg
                · simp at ha hb; rw [ha, hb]
                · exact ih g (hgr ▸ hg) a ha b hb

theorem groupRuns_cons_eq (s : Node) (rest : List Node) :
    groupRuns (s :: rest) =
      match groupRuns rest with
      | [] => [[s]]
      | [] :: gs => [s] :: [] :: gs
      | (t :: g) :: gs =>
          if s.cls = t.cls then (s :: t :: g) :: gs
          else [s] :: (t :: g) :: gs := rfl

theorem countGroups :
    ∀ l : List Node, l.Pairwise (fun a b => clsLe a.cls b.cls) →
      ∀ c : SwClass,
        (groupRuns l).countP (fun g => decide (groupHeadCls g = some c)) =
          if c ∈ l.map (fun s => s.cls) then 1 else 0 := by
  intro l
  induction l with
  | nil => intro _ c; simp [groupRuns]
  | cons s rest ih =>
      intro hs c
      have hsr := hs.of_cons
      have hhead : ∀ y ∈ rest, clsLe s.cls y.cls :=
        fun y hy => List.rel_of_pairwise_cons hs hy
      cases rest with
      | nil =>
          by_cases hc : s.cls = c <;>
            simp [groupRuns, groupHeadCls, List.countP_cons, hc, eq_comm]
      | cons t rest2 =>
          obtain ⟨g, gs, hgr⟩ := groupRuns_head_cons t rest2
          have hrest := ih hsr c
          rw [hgr] at hrest
          by_cases hc : s.cls = t.cls
          · have hshape : groupRuns (s :: t :: rest2) = (s :: t :: g) :: gs := by
              rw [groupRuns_cons_eq, hgr]
              simp [hc]
            rw [hshape]
            have hpeq : (decide (groupHeadCls (s :: t :: g) = some c)) =
                (decide (groupHeadCls (t :: g) = some c)) := by
              simp only [groupHeadCls, hc]
            have hmiff : (c ∈ (s :: t :: rest2).map (fun s => s.cls)) ↔
                (c ∈ (t :: rest2).map (fun s => s.cls)) := by
              constructor
              · intro hm
                rcases List.mem_map.mp hm with ⟨y, hy, hyc⟩
                rcases List.mem_cons.mp hy with rfl | hy2
                · exact List.mem_map.mpr
                    ⟨t, List.mem_cons_self _ _, by rw [← hc]; exact hyc⟩
                · exact List.mem_map.mpr ⟨y, hy2, hyc⟩
              · intro hm
                rcases List.mem_map.mp hm with ⟨y, hy, hyc⟩
                exact List.mem_map.mpr ⟨y, List.mem_cons_of_mem _ hy, hyc⟩
            rw [List.countP_cons, hpeq, if_congr hmiff rfl rfl, ← hrest,
              List.countP_cons]
          · have hshape : groupRuns (s :: t :: rest2) = [s] :: (t :: g) :: gs := by
              rw [groupRuns_cons_eq, hgr]
              simp [hc]
            rw [hshape]
            have hnos : c = s.cls → c ∉ (t :: rest2).map (fun s => s.cls) := by
              intro hcc hmem
              obtain ⟨y, hy, hyc⟩ := List.mem_map.mp hmem
              have hys : y.cls = s.cls := by rw [hyc, hcc]
              rcases List.mem_cons.mp hy with rfl | hy2
              · exact hc hys.symm
              · have h1 : clsLe t.cls y.cls := List.rel_of_pairwise_cons hsr hy2
                have h2 : clsLe s.cls t.cls := hhead t (List.mem_cons_self _ _)
                rw [hys] at h1
                exact hc (clsLe_antisymm h2 h1)
            by_cases hcc : c = s.cls
            · have hnm := hnos hcc
              rw [if_neg hnm] at hrest
              have hone : (decide (groupHeadCls [s] = some c)) = true := by
                simp [groupHeadCls, hcc]
              have hmm : c ∈ (s :: t :: rest2).map (fun s => s.cls) :=
                List.mem_map.mpr ⟨s, List.mem_cons_self _ _, hcc.symm⟩
              rw [if_pos hmm, List.countP_cons, hrest, hone]
              simp
            · have hzero : (decide (groupHeadCls [s] = some c)) = false := by
                simp only [groupHeadCls, decide_eq_false_iff_not]
                intro h
                exact hcc (Option.some.inj h).symm
              have hmiff : (c ∈ (s :: t :: rest2).map (fun s => s.cls)) ↔
                  (c ∈ (t :: rest2).map (fun s => s.cls)) := by
                constructor
                · intro hm
                  rcases List.mem_map.mp hm with ⟨y, hy, hyc⟩
                  rcases List.mem_cons.mp hy with rfl | hy2
                  · exact absurd hyc.symm hcc
                  · exact List.mem_map.mpr ⟨y, hy2, hyc⟩
                · intro hm
                  rcases List.mem_map.mp hm with ⟨y, hy, hyc⟩
                  exact List.mem_map.mpr ⟨y, List.mem_cons_of_mem _ hy, hyc⟩
              rw [List.countP_cons, hzero, if_congr hmiff rfl rfl, ← hrest]
              simp

theorem filter_batchStartup_length (c : SwClass) (hc : c.hasBatchStartup = true) :
    ∀ gs : List (List Node),
      ((gs.filterMap (fun g =>
          match g with
          | [] => none
          | t :: _ =>
              if t.cls.hasBatchStartup then
                some (Event.batchStartup t.cls (g.map (fun s => s.name)))
              else none)).filter (isBatchStartupFor c)).length =
        gs.countP (fun g => decide (groupHeadCls g = some c)) := by
  intro gs
  induction gs with
  | nil => simp
  | cons g gs ih =>
      cases g with
      | nil =>
          have h0 : decide (groupHeadCls ([] : List Node) = some c) = false := by
            simp [groupHeadCls]
          simp only [List.filterMap_cons, List.countP_cons, h0]
          rw [ih]
          simp
      | cons t g' =>
          by_cases hb : t.cls.hasBatchStartup = true
          · by_cases hct : t.cls = c
            · have h1 : decide (groupHeadCls (t :: g') = some c) = true := by
                simp [groupHeadCls, hct]
              simp [List.filterMap_cons, hb, hc, List.filter_cons,
                isBatchStartupFor, hct, List.countP_cons, h1, ih]
            · have h1 : decide (groupHeadCls (t :: g') = some c) = false := by
                simp [groupHeadCls, hct]
              simp [List.filterMap_cons, hb, List.filter_cons, isBatchStartupFor,
                hct, List.countP_cons, h1, ih]
          · have h1 : decide (groupHeadCls (t :: g') = some c) = false := by
              simp only [groupHeadCls, decide_eq_false_iff_not]
              intro h
              rw [Option.some.inj h] at hb
              exact hb hc
            simp [List.filterMap_cons, hb, List.countP_cons, h1, ih]

theorem pairwise_stage_blocks {f : Event → Nat} :
    ∀ blocks : List (Nat × List Event),
      (∀ p ∈ blocks, ∀ e ∈ p.2, f e = p.1) →
      (blocks.map Prod.fst).Pairwise (· ≤ ·) →
      ((blocks.map Prod.snd).flatten).Pairwise (fun a b => f a ≤ f b) := by
  intro blocks
  induction blocks with
  | nil => intro _ _; simp
  | cons p bs ih =>
      intro hstages hord
      obtain ⟨c, l⟩ := p
      simp only [List.map_cons, List.flatten_cons]
      rw [List.pairwise_append]
      refine ⟨?_, ?_, ?_⟩
      · have hl : ∀ e ∈ l, f e = c := fun e he =>
          hstages (c, l) (List.mem_cons_self _ _) e he
        clear hstages hord ih
        induction l with
        | nil => simp
        | cons x xs ihx =>
            refine List.Pairwise.cons ?_
              (ihx (fun e he => hl e (List.mem_cons_of_mem _ he)))
            intro b hb
            rw [hl x (List.mem_cons_self _ _), hl b (List.mem_cons_of_mem _ hb)]
      · exact ih (fun q hq e he => hstages q (List.mem_cons_of_mem _ hq) e he)
          hord.of_cons
      · intro a ha b hb
        obtain ⟨lb, hlb, hbin⟩ := List.mem_flatten.mp hb
        obtain ⟨q, hq, rfl⟩ := List.mem_map.mp hlb
        rw [hstages (c, l) (List.mem_cons_self _ _) a ha,
          hstages q (List.mem_cons_of_mem _ hq) b hbin]
        exact List.rel_of_pairwise_cons hord (List.mem_map_of_mem Prod.fst hq)

theorem startTrace_eq_flatten (net : Mininet) :
    net.startTrace =
      ([(0, net.controllers.map (fun c => Event.controllerStart c.name)),
        (1, net.switches.map (fun s => Event.switchStart s.name)),
        (2, (batchGroups net.switches).filterMap (fun g =>
          match g with
          | [] => none
          | t :: _ =>
              if t.cls.hasBatchStartup then
                some (Event.batchStartup t.cls (g.map (fun s => s.name)))
              else none))].map Prod.snd).flatten := by
  simp [Mininet.startTrace]

theorem stopTrace_eq_flatten (net : Mininet) :
    net.stopTrace =
      ([(0, net.controllers.map (fun c => Event.controllerStop c.name)),
        (1, net.terms.map (fun t => Event.termKill t)),
        (2, net.links.map (fun l => Event.linkStop l.id)),
        (3, (batchGroups net.switches).filterMap (fun g =>
          match g with
          | [] => none
          | t :: _ =>
              if t.cls.hasBatchShutdown then
                some (Event.batchShutdown t.cls (g.map (fun s => s.name)))
              else none)),
        (4, net.switches.flatMap (fun s =>
          (if s ∈ stoppedSet net.switches then []
           else [Event.switchStop s.name]) ++ [Event.switchTerminate s.name])),
        (5, net.hosts.map (fun h => Event.hostTerminate h.name))].map
          Prod.snd).flatten := by
  simp [Mininet.stopTrace]

/-! ## C4: start() — individual starts come first, batch startup after -/

/-- C4 counterexample: on a network with one batch-capable switch whose
batch call succeeds, the switch is in the batch success set and yet its
individual `start` IS invoked — and it is invoked before the class
batch startup, not after, as the whole start trace shows. -/
theorem C4_batch_not_skipping_cex :
    swA ∈ startedSet cnetBatch.switches ∧
    Event.switchStart "s1" ∈ cnetBatch.startTrace ∧
    cnetBatch.startTrace =
      [Event.switchStart "s1", Event.batchStartup ovsCls ["s1"]] := by
  refine ⟨by decide, by decide, by decide⟩

/-- C4 amended: during `start()`, every switch's individual start is
invoked (none is skipped), all individual starts precede every
class-level `batchStartup` call (controllers come first of all), and
each class advertising batch startup receives exactly one `batchStartup`
invocation (exactly when it has a switch instance); the recorded success
set influences nothing in `start()`. -/
theorem C4_start_individual_then_batch (net : Mininet) :
    net.startTrace.Pairwise (fun a b => startStage a ≤ startStage b) ∧
    (∀ s ∈ net.switches, Event.switchStart s.name ∈ net.startTrace) ∧
    (∀ c : SwClass, c.hasBatchStartup = true →
      (net.startTrace.filter (isBatchStartupFor c)).length =
        if c ∈ net.switches.map (fun s => s.cls) then 1 else 0) := by
  refine ⟨?_, ?_, ?_⟩
  · rw [startTrace_eq_flatten]
    apply pairwise_stage_blocks
    · intro p hp e he
      simp only [List.mem_cons, List.not_mem_nil, or_false] at hp
      rcases hp with rfl | rfl | rfl
      · obtain ⟨x, _, rfl⟩ := List.mem_map.mp he; rfl
      · obtain ⟨x, _, rfl⟩ := List.mem_map.mp he; rfl
      · obtain ⟨g, hg, hfe⟩ := List.mem_filterMap.mp he
        cases g with
        | nil => simp at hfe
        | cons t g' =>
            have hfe2 : (if t.cls.hasBatchStartup = true then
                some (Event.batchStartup t.cls ((t :: g').map (fun s => s.name)))
                else none) = some e := hfe
            by_cases hb : t.cls.hasBatchStartup = true
            · rw [if_pos hb] at hfe2
              obtain rfl := Option.some.inj hfe2
              rfl
            · rw [if_neg hb] at hfe2
              exact absurd hfe2 (by simp)
    · simp [List.pairwise_cons]
  · intro s hs
    exact List.mem_append_left _
      (List.mem_append_right _ (List.mem_map_of_mem _ hs))
  · intro c hcb
    simp only [Mininet.startTrace, List.filter_append]
    rw [show (net.controllers.map
          (fun c2 => Event.controllerStart c2.name)).filter
          (isBatchStartupFor c) = [] from by
        simp [List.filter_map, isBatchStartupFor, Function.comp],
      show (net.switches.map (fun s => Event.switchStart s.name)).filter
          (isBatchStartupFor c) = [] from by
        simp [List.filter_map, isBatchStartupFor, Function.comp],
      List.nil_append, List.nil_append,
      filter_batchStartup_length c hcb]
    show (groupRuns (sortByType net.switches)).countP _ = _
    rw [countGroups (sortByType net.switches) (sortByType_pairwise _) c,
      if_congr (sortByType_map_cls_mem net.switches c) rfl rfl]

/-- Witness for C4 on `cnetBatch`: the switch's individual start appears
in the trace, and its (batch-capable) class gets one batch call. -/
theorem C4_start_individual_then_batch_witness :
    Event.switchStart "s1" ∈ cnetBatch.startTrace ∧
    (cnetBatch.startTrace.filter (isBatchStartupFor ovsCls)).length = 1 := by
  have h := C4_start_individual_then_batch cnetBatch
  refine ⟨h.2.1 swA (by decide), ?_⟩
  have h3 := h.2.2 ovsCls rfl
  rw [h3]
  decide

/-! ## C5: stop() — teardown stage order -/

/-- C5: during `stop()`, the teardown stages occur in the fixed order
controllers → terminals → links → class batch shutdown → individual
switch stop/terminate → hosts: no call of a later stage precedes a call
of an earlier one, every controller is stopped, every terminal killed,
every link stopped, every switch terminated, and every host terminated. -/
theorem C5_stop_stage_order (net : Mininet) :
    net.stopTrace.Pairwise (fun a b => stopStage a ≤ stopStage b) ∧
    (∀ c ∈ net.controllers, Event.controllerStop c.name ∈ net.stopTrace) ∧
    (∀ t ∈ net.terms, Event.termKill t ∈ net.stopTrace) ∧
    (∀ l ∈ net.links, Event.linkStop l.id ∈ net.stopTrace) ∧
    (∀ s ∈ net.switches, Event.switchTerminate s.name ∈ net.stopTrace) ∧
    (∀ h ∈ net.hosts, Event.hostTerminate h.name ∈ net.stopTrace) := by
  refine ⟨?_, ?_, ?_, ?_, ?_, ?_⟩
  · rw [stopTrace_eq_flatten]
    apply pairwise_stage_blocks
    · intro p hp e he
      simp only [List.mem_cons, List.not_mem_nil, or_false] at hp
      rcases hp with rfl | rfl | rfl | rfl | rfl | rfl
      · obtain ⟨x, _, rfl⟩ := List.mem_map.mp he; rfl
      · obtain ⟨x, _, rfl⟩ := List.mem_map.mp he; rfl
      · obtain ⟨x, _, rfl⟩ := List.mem_map.mp he; rfl
      · obtain ⟨g, hg, hfe⟩ := List.mem_filterMap.mp he
        cases g with
        | nil => simp at hfe
        | cons t g' =>
            have hfe2 : (if t.cls.hasBatchShutdown = true then
                some (Event.batchShutdown t.cls ((t :: g').map (fun s => s.name)))
                else none) = some e := hfe
            by_cases hb : t.cls.hasBatchShutdown = true
            · rw [if_pos hb] at hfe2
              obtain rfl := Option.some.inj hfe2
              rfl
            · rw [if_neg hb] at hfe2
              exact absurd hfe2 (by simp)
      · obtain ⟨s, _, hmem⟩ := List.mem_flatMap.mp he
        rcases List.mem_append.mp hmem with hL | hR
        · by_cases hstop : s ∈ stoppedSet net.switches
          · rw [if_pos hstop] at hL
            exact absurd hL (List.not_mem_nil _)
          · rw [if_neg hstop] at hL
            obtain rfl := List.mem_singleton.mp hL
            rfl
        · obtain rfl := List.mem_singleton.mp hR
          rfl
      · obtain ⟨x, _, rfl⟩ := List.mem_map.mp he; rfl
    · simp [List.pairwise_cons]
  · intro c hc
    exact List.mem_append_left _ (List.mem_append_left _
      (List.mem_append_left _ (List.mem_append_left _
        (List.mem_append_left _ (List.mem_map_of_mem _ hc)))))
  · intro t ht
    exact List.mem_append_left _ (List.mem_append_left _
      (List.mem_append_left _ (List.mem_append_left _
        (List.mem_append_right _ (List.mem_map_of_mem _ ht)))))
  · intro l hl
    exact List.mem_append_left _ (List.mem_append_left _
      (List.mem_append_left _ (List.mem_append_right _
        (List.mem_map_of_mem _ hl))))
  · intro s hs
    refine List.mem_append_left _ (List.mem_append_right _ ?_)
    exact List.mem_flatMap.mpr
      ⟨s, hs, List.mem_append_right _ (List.mem_singleton_self _)⟩
  · intro h hh
    exact List.mem_append_right _ (List.mem_map_of_mem _ hh)

/-- Witness for C5 on `cnetStop`: the controller stop, a link stop, a
switch terminate and the host terminate all occur in the stop trace. -/
theorem C5_stop_stage_order_witness :
    Event.controllerStop "c0" ∈ cnetStop.stopTrace ∧
    Event.linkStop 0 ∈ cnetStop.stopTrace ∧
    Event.switchTerminate "s1" ∈ cnetStop.stopTrace ∧
    Event.hostTerminate "h1" ∈ cnetStop.stopTrace := by
  have h := C5_stop_stage_order cnetStop
  exact ⟨h.2.1 ctrl0 (by decide), h.2.2.2.1 ⟨0, "h1", "s1"⟩ (by decide),
    h.2.2.2.2.1 swA (by decide),
    h.2.2.2.2.2 ⟨"h1", hostCls, some "10.0.0.1/8", none, none, none, true,
      false, false⟩ (by decide)⟩

/-! ## C6: stop() — which switches get individual stop/terminate calls -/

theorem switchStop_mem_stopTrace (net : Mininet) (nm : String) :
    Event.switchStop nm ∈ net.stopTrace ↔
      ∃ s ∈ net.switches, s.name = nm ∧ s ∉ stoppedSet net.switches := by
  simp only [Mininet.stopTrace, List.mem_append, List.mem_map,
    List.mem_filterMap, List.mem_flatMap]
  constructor
  · rintro (((((⟨c, _, hc⟩ | ⟨t, _, ht⟩) | ⟨l, _, hl⟩) | ⟨g, hg, hfg⟩) |
        ⟨s, hs, hmem⟩) | ⟨h, _, hh⟩)
    · exact absurd hc (by simp)
    · exact absurd ht (by simp)
    · exact absurd hl (by simp)
    · cases g with
      | nil => exact absurd hfg (by simp)
      | cons t g' =>
          have hfg2 : (if t.cls.hasBatchShutdown = true then
              some (Event.batchShutdown t.cls ((t :: g').map (fun s => s.name)))
              else none) = some (Event.switchStop nm) := hfg
          by_cases hb : t.cls.hasBatchShutdown = true
          · rw [if_pos hb] at hfg2
            exact absurd (Option.some.inj hfg2) (by simp)
          · rw [if_neg hb] at hfg2
            exact absurd hfg2 (by simp)
    · rcases hmem with hL | hR
      · by_cases hstop : s ∈ stoppedSet net.switches
        · rw [if_pos hstop] at hL
          exact absurd hL (List.not_mem_nil _)
        · rw [if_neg hstop] at hL
          have hname := List.mem_singleton.mp hL
          exact ⟨s, hs, (Event.switchStop.inj hname).symm, hstop⟩
      · exact absurd (List.mem_singleton.mp hR) (by simp)
    · exact absurd hh (by simp)
  · rintro ⟨s, hs, rfl, hstop⟩
    refine Or.inl (Or.inr ⟨s, hs, ?_⟩)
    rw [if_neg hstop]
    exact Or.inl (List.mem_singleton_self _)

/-- C6 counterexample: on a network with one batch-capable switch whose
batch shutdown succeeds, the switch is in the batch success set and is
nevertheless terminated — `switch.terminate()` runs for every switch,
contradicting the claim that success-set members receive neither stop
nor terminate. -/
theorem C6_terminate_despite_success_cex :
    swA ∈ stoppedSet cnetBatch.switches ∧
    Event.switchTerminate "s1" ∈ cnetBatch.stopTrace := by
  refine ⟨by decide, by decide⟩

/-- C6 amended: during `stop()`, a switch receives the individual `stop`
call exactly when it is not in its class's batch-shutdown success set,
and receives `terminate` in every case (the success set only skips the
`stop` call, not the `terminate`). -/
theorem C6_stop_skip_only_stop (net : Mininet)
    (hnd : (net.switches.map (fun s => s.name)).Nodup) :
    ∀ s ∈ net.switches,
      (Event.switchStop s.name ∈ net.stopTrace ↔
        s ∉ stoppedSet net.switches) ∧
      Event.switchTerminate s.name ∈ net.stopTrace := by
  intro s hs
  constructor
  · constructor
    · intro hmem
      obtain ⟨s', hs', hname, hstop⟩ :=
        (switchStop_mem_stopTrace net s.name).mp hmem
      have : s' = s := List.inj_on_of_nodup_map hnd hs' hs hname
      rw [← this]
      exact hstop
    · intro hstop
      exact (switchStop_mem_stopTrace net s.name).mpr ⟨s, hs, rfl, hstop⟩
  · refine List.mem_append_left _ (List.mem_append_right _ ?_)
    exact List.mem_flatMap.mpr
      ⟨s, hs, List.mem_append_right _ (List.mem_singleton_self _)⟩

/-- Witness for C6 on `cnetStop`: the batch-failed switch `s2` gets an
individual stop, and the batch-succeeded switch `s1` is terminated. -/
theorem C6_stop_skip_only_stop_witness :
    Event.switchStop "s2" ∈ cnetStop.stopTrace ∧
    Event.switchTerminate "s1" ∈ cnetStop.stopTrace := by
  have h1 := C6_stop_skip_only_stop cnetStop (by decide) swB (by decide)
  have h2 := C6_stop_skip_only_stop cnetStop (by decide) swA (by decide)
  exact ⟨h1.1.mpr (by decide), h2.2⟩

/-! ## C8: waitConnected's final re-check -/

/-- C8: evaluation of `waitConnected` at the failing input and at the
claim's concrete scenario.  With `timeout=1, delay=0.1`, on two switches
where `sA` connects only between the last poll and the final re-check
and `sB` never connects, the final loop removes `sA` from `remaining`
while iterating over it, skipping `sB`: the call returns failure but
warns about nothing — not about `sB`, which is still unconnected —
contradicting the claim that every still-unconnected switch is re-checked
and warned (exactly the unconnected ones).  The claim's own 3-switch
instance (2 connect immediately, 1 never) does hold: failure naming
exactly `s3`.  The same skip makes the function return `False` with no
warnings even when every switch is connected by the final pass (`sC`,
`sD`), contradicting its docstring `returns: True if all switches are
connected`. -/
theorem C8_final_recheck_skip_bug :
    (waitConnected [wswLateA, wswNeverB] 1 (1/10) = (false, []) ∧
      wswNeverB.conn 12 = false) ∧
    waitConnected [wswNow1, wswNow2, wswNever3] 1 (1/10) = (false, ["s3"]) ∧
    (waitConnected [wswLateC, wswLateD] 1 (1/10) = (false, []) ∧
      wswLateC.conn 12 = true ∧ wswLateD.conn 12 = true) := by
  refine ⟨⟨?_, rfl⟩, ?_, ⟨?_, rfl, rfl⟩⟩ <;>
    norm_num [waitConnected, wcGo, wcPoll, fcGo, wswLateA, wswNeverB,
      wswNow1, wswNow2, wswNever3, wswLateC, wswLateD]

end Containernet